import Mathlib

/-!
Verification of the PrimeBagCluster repository: a shallow embedding of
`SieveOfEratosthenes` (SieveOfEratosthenes.h/.cpp), `PrimeTable`
(PrimeTable.h), `PrimeBag` and `PrimeBagIterator` (PrimeBag.h), together
with proofs and refutations of the specified claims.

Modelling conventions:
* `uint` quantities are modelled as `Nat` with explicit reduction
  `% 2^32` at the operations where the C++ unsigned arithmetic wraps
  observably: the bag/iterator sizes (`length`, and the `primeIndex`
  initialisation cast), and the sieve's doubling of `sieveLimit`
  (whose wrap to `0` makes the C++ doubling loop hang — the point of
  claim C1's correction).  The remaining sieve and table arithmetic
  stays in `Nat`; it is exact on every state below that hang.
* `boost::multiprecision::cpp_int` hashes are modelled as `Nat`
  (every operation of the repository keeps them non-negative).
* fallible operations (`cpp_int` modulo by zero, `std::unordered_map::at`,
  `std::future::get` on an invalid future, out-of-range vector reads,
  loops whose C++ counterpart would not terminate) return `Option`,
  with `none` for the failing/diverging case.
* the C++ `while` loops that have no structural termination measure are
  given an explicit fuel argument; the fuel is always chosen so that
  exhausting it coincides with the C++ loop not terminating (or is
  existentially quantified in theorems, for the outer sieve loop).
* `std::future` prefetching is sequentialised: the asynchronous task is
  run eagerly at launch time (its result is deterministic and the C++
  code serialises every other access to the sieve behind `get()`).
* `std::priority_queue<uint>` is modelled as a descending-sorted list:
  `top` is the head, `push` is ordered insertion, matching the
  observable max-heap behaviour.
-/

namespace PrimeBagCluster

/-- Executable primality test by trial division (used on the
specification side to describe prime lists; `isPrimeB_iff` ties it to
`Nat.Prime`). -/
def isPrimeB (n : Nat) : Bool :=
  decide (2 ≤ n) && (List.range n).all (fun d => decide (d < 2) || decide (n % d ≠ 0))

/-- The ascending list of all primes `≤ n` (specification side). -/
def primesUpTo (n : Nat) : List Nat :=
  (List.range (n + 1)).filter isPrimeB

/-- `2^32`: the modulus of the C++ 32-bit unsigned (`uint`) arithmetic. -/
def U32 : Nat := 4294967296

/-- State of a `SieveOfEratosthenes` object (SieveOfEratosthenes.h lines 86-100). -/
structure Sieve where
  highestTestedNum : Nat
  sieveLimit : Nat
  primes : List Nat
deriving DecidableEq

/-- Embeds `countMultiplesInBitField` (SieveOfEratosthenes.h lines 12-30).
The C++ loop `for (multiple = prime*prime; multiple <= max; multiple += prime)`
is rendered as a fold over the same arithmetic progression; position
`multiple - min` is cleared for every multiple `≥ min`.  (For `prime = 0`
the C++ loop would not terminate; every caller passes a prime `≥ 2`.) -/
def countMultiplesInBitField (bitField : List Bool) (prime lo hi : Nat) : List Bool :=
  if prime * prime > hi then bitField
  else
    (List.range' (prime * prime) ((hi - prime * prime) / prime + 1) prime).foldl
      (fun bf multiple => if lo ≤ multiple then bf.set (multiple - lo) false else bf)
      bitField

/-- The `while (sieveLimit <= min) sieveLimit *= 2;` loop of
`SieveOfEratosthenes::sieve` (SieveOfEratosthenes.cpp lines 67-70).
`sieveLimit` is a `uint`, so the doubling wraps modulo `2^32`; once the
value wraps to `0` (at the 32nd doubling at the latest, since
`x * 2^32 ≡ 0 (mod 2^32)`), the condition `0 <= min` holds forever and
the C++ loop never exits.  `none` models that non-termination. -/
def updateLimitAux : Nat → Nat → Nat → Option Nat
  | 0, _, _ => none
  | fuel + 1, sieveLimit, lo =>
    if sieveLimit ≤ lo then updateLimitAux fuel (sieveLimit * 2 % U32) lo
    else some sieveLimit

/-- The doubling loop with fuel `lo + 34`, which decides every `uint`
input: a run that exits does so within `min (lo + 1) 33` iterations
(pre-wrap the value at least increments each step, and after 32
iterations the value is `0`), while a run still going after 33
iterations sits at `0` and loops forever.  So `some r` is exactly the
C++ result and `none` is exactly C++ non-termination. -/
def updateLimit (sieveLimit lo : Nat) : Option Nat :=
  updateLimitAux (lo + 34) sieveLimit lo

/-- Embeds the second `for` loop of `SieveOfEratosthenes::sieve`
(SieveOfEratosthenes.cpp lines 93-105): scan the bit field in index
order; every still-true index yields a new prime `index + min`, whose
multiples are struck out before scanning continues. -/
def sieveInner (lo hi : Nat) : List Nat → List Bool → List Nat → List Bool × List Nat
  | [], bitField, primes => (bitField, primes)
  | index :: rest, bitField, primes =>
    if bitField.getD index false then
      sieveInner lo hi rest (countMultiplesInBitField bitField (index + lo) lo hi)
        (primes ++ [index + lo])
    else
      sieveInner lo hi rest bitField primes

/-- The C++ `uint root = uint(sqrt(sieveLimit))`: the integer square
root, written as a bounded count so that the kernel can evaluate it
(`sqrtB n` counts the positive `r ≤ n` with `r * r ≤ n`, i.e. `⌊√n⌋`).
The sieve's correctness is independent of the exact root: it only sizes
the segment. -/
def sqrtB (n : Nat) : Nat :=
  (List.range (n + 1)).countP (fun r => decide (0 < r ∧ r * r ≤ n))

/-- One iteration of the outer `while` loop of `SieveOfEratosthenes::sieve`
(SieveOfEratosthenes.cpp lines 57-111): one segment.
`lo`/`hi` are the C++ locals `min`/`max`.  `none` propagates the
doubling-loop hang (the segment never finishes).  The remaining
arithmetic of a segment stays in `Nat`: on any state on which the
doubling loop still returns, `lo ≤ 2^31`, so `lo + root` and the
64-bit multiple striding stay far below their types' moduli. -/
def sieveSegment (s : Sieve) : Option Sieve :=
  let lo := s.highestTestedNum + 1
  match updateLimit s.sieveLimit lo with
  | none => none
  | some limit =>
    let root := sqrtB limit
    let hi := Nat.min limit (lo + root)
    let bitField0 := List.replicate (hi - lo + 1) true
    let bitField1 := s.primes.foldl (fun bf p => countMultiplesInBitField bf p lo hi) bitField0
    let out := sieveInner lo hi (List.range bitField1.length) bitField1 s.primes
    some { highestTestedNum := hi, sieveLimit := limit, primes := out.2 }

/-- Embeds `SieveOfEratosthenes::sieve` (the outer
`while (primes.size() < numPrimes)` loop) with structural fuel: each
unit of fuel permits one segment.  The C++ loop has no static bound;
theorems quantify the fuel (exhaustion returns the state reached so
far, whose prime count the caller checks), while `none` is a genuine
hang inside a segment's doubling loop. -/
def sieveFuel : Nat → Sieve → Nat → Option Sieve
  | 0, s, _ => some s
  | fuel + 1, s, numPrimes =>
    if s.primes.length < numPrimes then
      match sieveSegment s with
      | none => none
      | some s1 => sieveFuel fuel s1 numPrimes
    else some s

/-- Embeds `SieveOfEratosthenes::getPrimeNumber` (SieveOfEratosthenes.cpp
lines 45-50): run `sieve(index + 1)`, then return `primes[index]`.
`none` when the sieve hangs in the doubling loop, or when the allotted
fuel did not produce enough primes (the C++ code would still be
running its loop in both cases). -/
def getPrimeNumberF (fuel : Nat) (s : Sieve) (index : Nat) : Option (Sieve × Nat) :=
  (sieveFuel fuel s (index + 1)).bind
    (fun s1 => (s1.primes.get? index).map (fun p => (s1, p)))

/-- The unseeded constructor `SieveOfEratosthenes(nullptr)`
(SieveOfEratosthenes.cpp lines 6-33): `highestTestedNum = 1`,
`sieveLimit = 1`, no primes. -/
def initialSieve : Sieve :=
  { highestTestedNum := 1, sieveLimit := 1, primes := [] }

/-- The sieve invariant: the prime list is exactly the ascending list of
primes up to `highestTestedNum`, and the two counters are positive
(as established by both constructor paths). -/
def SieveInv (s : Sieve) : Prop :=
  s.primes = primesUpTo s.highestTestedNum ∧ 1 ≤ s.sieveLimit ∧ 1 ≤ s.highestTestedNum

instance (s : Sieve) : Decidable (SieveInv s) := by
  unfold SieveInv; infer_instance

/-- `Marked lo t k` says: position `k` of the current segment (the number
`lo + k`) is struck out after all primes `< lo + t` have had their
multiples counted (primes below the segment together with segment
primes at indices `< t`). -/
def Marked (lo t k : Nat) : Prop :=
  ∃ p, Nat.Prime p ∧ p < lo + t ∧ p ∣ (lo + k) ∧ p * p ≤ lo + k

/-! ### `PrimeTable` (PrimeTable.h) -/

/-- `std::unordered_map` lookup (`find`). -/
def alookup {K A : Type} [DecidableEq K] : List (K × A) → K → Option A
  | [], _ => none
  | kv :: rest, k => if kv.1 = k then some kv.2 else alookup rest k

/-- `std::unordered_map` insertion-or-assignment (`m[k] = v`). -/
def aset {K A : Type} [DecidableEq K] : List (K × A) → K → A → List (K × A)
  | [], k, a => [(k, a)]
  | kv :: rest, k, a => if kv.1 = k then (k, a) :: rest else kv :: aset rest k a

/-- `std::unordered_map` erasure (`m.erase(k)`). -/
def aerase {K A : Type} [DecidableEq K] : List (K × A) → K → List (K × A)
  | [], _ => []
  | kv :: rest, k => if kv.1 = k then rest else kv :: aerase rest k

/-- `std::priority_queue<uint>::push`: ordered insertion into the
descending-sorted pool (the queue's observable behaviour: `top` is
always the maximum). -/
def pqPush : List Nat → Nat → List Nat
  | [], x => [x]
  | y :: ys, x => if x > y then x :: y :: ys else y :: pqPush ys x

/-- State of a `PrimeTable<V>` object (PrimeTable.h lines 200-226).
`nextPrime = some p` models a valid `std::future` whose task has
produced `p` (the task is sequentialised at launch, see the file
header); `none` models an invalid (defaulted or consumed) future. -/
structure PrimeTable (V : Type) where
  nextPrime : Option Nat
  sieveOfEratosthenes : Sieve
  primeHoles : List Nat
  primeMap : List (V × Nat)
  reversePrimeMap : List (Nat × V)
deriving DecidableEq

/-- The default-constructed `PrimeTable` (unseeded sieve, invalid future). -/
def freshTable (V : Type) : PrimeTable V :=
  { nextPrime := none, sieveOfEratosthenes := initialSieve,
    primeHoles := [], primeMap := [], reversePrimeMap := [] }

/-- Embeds `PrimeTable::add` (PrimeTable.h lines 40-98).  `fuel` bounds
the sieve's outer loop (both for the synchronous call and for the
relaunched prefetch task); `none` means the sieve loop was still
running when the fuel ran out. -/
def PrimeTable.add {V : Type} [DecidableEq V] (fuel : Nat) (t : PrimeTable V) (value : V) :
    Option (Nat × PrimeTable V) :=
  match alookup t.primeMap value with
  | some prime => some (prime, t)
  | none =>
    match t.primeHoles with
    | prime :: rest =>
      some (prime,
        { t with primeHoles := rest,
                 primeMap := aset t.primeMap value prime,
                 reversePrimeMap := aset t.reversePrimeMap prime value })
    | [] =>
      (match t.nextPrime with
       | some prime => some (prime, t.sieveOfEratosthenes)
       | none =>
         (getPrimeNumberF fuel t.sieveOfEratosthenes t.primeMap.length).map
           (fun sp : Sieve × Nat => (sp.2, sp.1))).bind
      (fun ps : Nat × Sieve =>
        (getPrimeNumberF fuel ps.2 (t.primeMap.length + 1)).map
          (fun sp : Sieve × Nat =>
            (ps.1,
              { t with nextPrime := some sp.2,
                       sieveOfEratosthenes := sp.1,
                       primeMap := aset t.primeMap value ps.1,
                       reversePrimeMap := aset t.reversePrimeMap ps.1 value })))

/-- Embeds `PrimeTable::getPrime` (PrimeTable.h lines 103-115):
`0` signals "unassigned". -/
def PrimeTable.getPrime {V : Type} [DecidableEq V] (t : PrimeTable V) (value : V) : Nat :=
  match alookup t.primeMap value with
  | some prime => prime
  | none => 0

/-- Embeds `PrimeTable::remove` (PrimeTable.h lines 124-141). -/
def PrimeTable.remove {V : Type} [DecidableEq V] (t : PrimeTable V) (value : V) :
    Nat × PrimeTable V :=
  match alookup t.primeMap value with
  | some prime =>
    (prime,
      { t with primeHoles := pqPush t.primeHoles prime,
               primeMap := aerase t.primeMap value,
               reversePrimeMap := aerase t.reversePrimeMap prime })
  | none => (0, t)

/-- Embeds `PrimeTable::clear` (PrimeTable.h lines 146-163).
`nextPrime.get()` on an invalid future throws `std::future_error`
(`none` here).  The final statement `primeHoles;` of the C++ body is an
expression statement with no effect, so the hole pool is NOT cleared. -/
def PrimeTable.clear {V : Type} (t : PrimeTable V) : Option (PrimeTable V) :=
  match t.nextPrime with
  | none => none
  | some _ =>
    some { t with nextPrime := none, primeMap := [], reversePrimeMap := [] }

/-- Embeds `PrimeTable::containsPrime` (PrimeTable.h lines 177-182). -/
def PrimeTable.containsPrime {V : Type} (t : PrimeTable V) (prime : Nat) : Bool :=
  (alookup t.reversePrimeMap prime).isSome

/-- Embeds `PrimeTable::getValue` (PrimeTable.h lines 188-191);
`reversePrimeMap.at(prime)` throws when the prime is unassigned (`none`). -/
def PrimeTable.getValue {V : Type} (t : PrimeTable V) (prime : Nat) : Option V :=
  alookup t.reversePrimeMap prime

/-- Embeds `PrimeTable::getPrimeNumbers` (PrimeTable.h lines 196-199). -/
def PrimeTable.getPrimeNumbers {V : Type} (t : PrimeTable V) : List Nat :=
  t.sieveOfEratosthenes.primes

/-! ### `PrimeBag` (PrimeBag.h) -/

/-- C++ `uint` addition (wraps modulo `2^32`). -/
def uadd (a b : Nat) : Nat := (a + b) % U32

/-- C++ `uint` subtraction (wraps modulo `2^32`). -/
def usub (a b : Nat) : Nat := (a + (U32 - b % U32)) % U32

/-- The C++ cast `uint(primes.size() - 1)` of the iterator constructor:
`size_t` subtraction wraps modulo `2^64`, then truncates to 32 bits. -/
def initPrimeIndex (n : Nat) : Nat :=
  ((n + (18446744073709551616 - 1)) % 18446744073709551616) % U32

/-- Embeds the helper `containsHash` (PrimeBag.h lines 15-18):
`!(hash % otherHash)`.  `cpp_int` modulo by zero throws (`none`). -/
def containsHash (hash otherHash : Nat) : Option Bool :=
  if otherHash = 0 then none else some (decide (hash % otherHash = 0))

/-- State of a `PrimeBag<V>` object (PrimeBag.h lines 201-204); all three
fields are public in the C++ class.  `globalTable` is the identity of
the table the bag points to (pointer value); operations that need the
table's contents receive the pointed-to `PrimeTable` explicitly. -/
structure PrimeBag (V : Type) where
  globalTable : Nat
  hash : Nat
  length : Nat
deriving DecidableEq

/-- A default-constructed bag bound to table `tag`: `hash{1}`, `length{0}`. -/
def emptyBag (V : Type) (tag : Nat) : PrimeBag V :=
  { globalTable := tag, hash := 1, length := 0 }

/-- Embeds `PrimeBag::add(const V&)` (PrimeBag.h lines 47-53); mutates
both the shared table (through `globalTable->add`) and the bag. -/
def bagAddValue {V : Type} [DecidableEq V] (fuel : Nat) (t : PrimeTable V)
    (b : PrimeBag V) (value : V) : Option (PrimeTable V × PrimeBag V) :=
  (PrimeTable.add fuel t value).map
    (fun pt => (pt.2, { b with hash := b.hash * pt.1, length := uadd b.length 1 }))

/-- Embeds `PrimeBag::add(const PrimeBag&)` (PrimeBag.h lines 55-65):
silent no-op when the registries (pointers) differ. -/
def bagAddBag {V : Type} (b bag : PrimeBag V) : PrimeBag V :=
  if bag.globalTable = b.globalTable then
    { b with hash := b.hash * bag.hash, length := uadd b.length bag.length }
  else b

/-- Embeds `PrimeBag::remove(const PrimeBag&)` (PrimeBag.h lines 67-84). -/
def bagRemoveBag {V : Type} (b bag : PrimeBag V) : Option (Bool × PrimeBag V) :=
  if bag.globalTable = b.globalTable then
    if bag.length ≤ b.length then
      match containsHash b.hash bag.hash with
      | none => none
      | some true =>
        some (true, { b with hash := b.hash / bag.hash, length := usub b.length bag.length })
      | some false => some (false, b)
    else some (false, b)
  else some (false, b)

/-- Embeds `PrimeBag::remove(const V&)` (PrimeBag.h lines 86-102). -/
def bagRemoveValue {V : Type} [DecidableEq V] (t : PrimeTable V) (b : PrimeBag V)
    (value : V) : Option (Bool × PrimeBag V) :=
  let prime := PrimeTable.getPrime t value
  if prime ≠ 0 then
    match containsHash b.hash prime with
    | none => none
    | some true =>
      some (true, { b with hash := b.hash / prime, length := usub b.length 1 })
    | some false => some (false, b)
  else some (false, b)

/-- Embeds `PrimeBag::contains` (PrimeBag.h lines 139-145); the C++ `&&`
short-circuits, so the divisibility test runs only for a nonzero prime. -/
def bagContains {V : Type} [DecidableEq V] (t : PrimeTable V) (b : PrimeBag V)
    (value : V) : Option Bool :=
  let prime := PrimeTable.getPrime t value
  if prime = 0 then some false else containsHash b.hash prime

/-- The `while (containsHash(hashCopy, prime))` loop of `PrimeBag::count`
(PrimeBag.h lines 160-164), with structural fuel.  For `prime ≥ 2` and
`hashCopy ≥ 1` the fuel `hashCopy + 1` supplied by `bagCount` is never
exhausted; exhaustion (`none`) corresponds to the C++ loop running
forever (`prime = 1`, or a zero hash). -/
def countAux (prime : Nat) : Nat → Nat → Nat → Option Nat
  | 0, _, _ => none
  | fuel + 1, hashCopy, result =>
    match containsHash hashCopy prime with
    | none => none
    | some true => countAux prime fuel (hashCopy / prime) (result + 1)
    | some false => some result

/-- Embeds `PrimeBag::count` (PrimeBag.h lines 152-168). -/
def bagCount {V : Type} [DecidableEq V] (t : PrimeTable V) (b : PrimeBag V)
    (value : V) : Option Nat :=
  let prime := PrimeTable.getPrime t value
  if prime ≠ 0 then countAux prime (b.hash + 1) b.hash 0 else some 0

/-- The inner `while (containsHash(hashCopy, bigPrime))` loop of
`PrimeBag::asVector` (PrimeBag.h lines 185-191), with structural fuel
(same regime as `countAux`): divide out one prime, decrement the
counter (`uint`, wrapping), emit the value. -/
def asVectorInner {V : Type} (prime : Nat) (value : V) :
    Nat → Nat → Nat → List V → Option (Nat × Nat × List V)
  | 0, _, _, _ => none
  | fuel + 1, hashCopy, counter, acc =>
    match containsHash hashCopy prime with
    | none => none
    | some true =>
      asVectorInner prime value fuel (hashCopy / prime) (usub counter 1) (acc ++ [value])
    | some false => some (hashCopy, counter, acc)

/-- The outer `for (uint prime : primes)` loop of `PrimeBag::asVector`
(PrimeBag.h lines 178-196).  Note the C++ calls `getValue(prime)` as soon
as `counter > 0`, before testing divisibility, so an unassigned prime
reached with a positive counter throws (`none`). -/
def asVectorAux {V : Type} (t : PrimeTable V) :
    List Nat → Nat → Nat → List V → Option (List V)
  | [], _, _, acc => some acc
  | prime :: rest, hashCopy, counter, acc =>
    if 0 < counter then
      match PrimeTable.getValue t prime with
      | none => none
      | some value =>
        match asVectorInner prime value (hashCopy + 1) hashCopy counter acc with
        | none => none
        | some out => asVectorAux t rest out.1 out.2.1 out.2.2
    else some acc

/-- Embeds `PrimeBag::asVector` (PrimeBag.h lines 170-199). -/
def bagAsVector {V : Type} [DecidableEq V] (t : PrimeTable V) (b : PrimeBag V) :
    Option (List V) :=
  asVectorAux t (PrimeTable.getPrimeNumbers t) b.hash b.length []

/-- Embeds `PrimeBag::clear` (PrimeBag.h lines 104-108). -/
def bagClear {V : Type} (b : PrimeBag V) : PrimeBag V :=
  { b with hash := 1, length := 0 }

/-- Embeds `PrimeBag::size` (PrimeBag.h lines 147-150). -/
def bagSize {V : Type} (b : PrimeBag V) : Nat := b.length

/-! ### `PrimeBagIterator` (PrimeBag.h lines 207-362)

The C++ iterator stores `const PrimeBag& refPrimeBag` and
`const PrimeTable* primeTable`: references to the live bag and table.
Operations therefore take the current state of the referenced table and
bag as explicit arguments (`t`, `live`); being `const`, the iterator can
never write through them, so operations return only a new iterator.
The uniform `live` argument is passed to every operation so that
(in)dependence on the live bag is expressible; the definitions use it
exactly where the C++ reads `refPrimeBag`. -/

/-- State of a `PrimeBagIterator<V>` (PrimeBag.h lines 357-361).
`tableTag` is the stored `primeTable` pointer value, `endFlag` the C++
member `end`. -/
structure PrimeBagIterator (V : Type) where
  tableTag : Nat
  primeBagCopy : PrimeBag V
  primeIndex : Nat
  endFlag : Bool
deriving DecidableEq

/-- Embeds `PrimeBagIterator::getPrimeAtTableIndex` (PrimeBag.h lines
325-329); reading `primes[primeIndex]` out of range is undefined (`none`). -/
def getPrimeAtTableIndex {V : Type} (t : PrimeTable V) (c : PrimeBagIterator V) :
    Option Nat :=
  (PrimeTable.getPrimeNumbers t).get? c.primeIndex

/-- The `while (!containsHash(...)) primeIndex++` loop of
`PrimeBagIterator::getNextPrimeFactor` (PrimeBag.h lines 331-342), with
structural fuel.  The fuel supplied by `getNextPrimeFactor` covers
every index up to the end of the prime vector, where the C++ read runs
out of range (`none`). -/
def getNextPrimeFactorAux (primes : List Nat) (hash : Nat) :
    Nat → Nat → Option (Nat × Nat)
  | 0, _ => none
  | fuel + 1, primeIndex =>
    match primes.get? primeIndex with
    | none => none
    | some prime =>
      match containsHash hash prime with
      | none => none
      | some true => some (prime, primeIndex)
      | some false => getNextPrimeFactorAux primes hash fuel (primeIndex + 1)

/-- `getNextPrimeFactor`: returns the found prime and the final
`primeIndex`. -/
def getNextPrimeFactor (primes : List Nat) (hash : Nat) (primeIndex : Nat) :
    Option (Nat × Nat) :=
  getNextPrimeFactorAux primes hash (primes.length + 1 - primeIndex) primeIndex

/-- The `while (!containsHash(refPrimeBag.hash, primeBagCopy.hash * prime))
primeIndex--` loop of `PrimeBagIterator::getPreviousPrimeFactor`
(PrimeBag.h lines 344-355), structurally recursive on the decreasing
index.  Decrementing past `0` wraps the `uint` index and the subsequent
`primes[...]` read is out of range, i.e. undefined (`none`). -/
def getPreviousPrimeFactorAux (primes : List Nat) (refHash copyHash : Nat) :
    Nat → Nat → Option (Nat × Nat)
  | 0, _ => none
  | fuel + 1, primeIndex =>
    match primes.get? primeIndex with
    | none => none
    | some prime =>
      match containsHash refHash (copyHash * prime) with
      | none => none
      | some true => some (prime, primeIndex)
      | some false =>
        match primeIndex with
        | 0 => none
        | i + 1 => getPreviousPrimeFactorAux primes refHash copyHash fuel i

/-- `getPreviousPrimeFactor`: the index strictly decreases, so fuel
`primeIndex + 1` is never exhausted. -/
def getPreviousPrimeFactor (primes : List Nat) (refHash copyHash primeIndex : Nat) :
    Option (Nat × Nat) :=
  getPreviousPrimeFactorAux primes refHash copyHash (primeIndex + 1) primeIndex

/-- Embeds `PrimeBagIterator::operator++` (PrimeBag.h lines 263-280).
Reads only the iterator's own copy and the table; never the live bag. -/
def iterAdvance {V : Type} (t : PrimeTable V) (live : PrimeBag V)
    (c : PrimeBagIterator V) : Option (PrimeBagIterator V) :=
  if c.endFlag then some c
  else if 0 < c.primeBagCopy.length then
    (getNextPrimeFactor (PrimeTable.getPrimeNumbers t) c.primeBagCopy.hash c.primeIndex).map
      (fun pr : Nat × Nat =>
        { c with primeIndex := pr.2,
                 primeBagCopy := { c.primeBagCopy with
                                   hash := c.primeBagCopy.hash / pr.1,
                                   length := usub c.primeBagCopy.length 1 } })
  else some { c with endFlag := true }

/-- Embeds `PrimeBagIterator::operator--` (PrimeBag.h lines 282-302).
Note the guard compares against the LIVE bag's `length` and the scan
divides into the LIVE bag's `hash` (`refPrimeBag`), not the snapshot. -/
def iterRetreat {V : Type} (t : PrimeTable V) (live : PrimeBag V)
    (c : PrimeBagIterator V) : Option (PrimeBagIterator V) :=
  match getPrimeAtTableIndex t c with
  | none => none
  | some prime =>
    if c.primeBagCopy.length < usub live.length 1 then
      let c1 :=
        if c.endFlag then { c with endFlag := false }
        else
          { c with primeBagCopy := { c.primeBagCopy with
                                     hash := c.primeBagCopy.hash * prime,
                                     length := uadd c.primeBagCopy.length 1 } }
      (getPreviousPrimeFactor (PrimeTable.getPrimeNumbers t) live.hash
          c1.primeBagCopy.hash c1.primeIndex).map
        (fun pr : Nat × Nat => { c1 with primeIndex := pr.2 })
    else some c

/-- Embeds `PrimeBagIterator::operator*` (PrimeBag.h lines 234-244):
throws `std::out_of_range` on a terminal cursor; `getValue` throws on an
unassigned prime.  Reads only the iterator and the table. -/
def iterDeref {V : Type} (t : PrimeTable V) (live : PrimeBag V)
    (c : PrimeBagIterator V) : Option V :=
  if c.endFlag then none
  else
    match getPrimeAtTableIndex t c with
    | none => none
    | some prime => PrimeTable.getValue t prime

/-- Embeds `PrimeBagIterator::operator==` (PrimeBag.h lines 246-256).
Reads only the two iterators' own fields. -/
def iterEqb {V : Type} [DecidableEq V] (live : PrimeBag V)
    (c other : PrimeBagIterator V) : Bool :=
  if c.tableTag ≠ other.tableTag then false
  else
    c.endFlag = other.endFlag ∧
      c.primeBagCopy.length = other.primeBagCopy.length ∧
      c.primeBagCopy.hash = other.primeBagCopy.hash

/-- Embeds the `PrimeBagIterator` constructor (PrimeBag.h lines 214-232):
copies the bag, becomes terminal when the bag is empty or `isEnd`
(clearing the copy and parking `primeIndex` at `uint(primes.size()-1)`),
otherwise advances once onto the first element. -/
def iterInit {V : Type} (t : PrimeTable V) (bag : PrimeBag V) (isEnd : Bool) :
    Option (PrimeBagIterator V) :=
  let e := decide (bag.length = 0) || isEnd
  if e then
    some { tableTag := bag.globalTable,
           primeBagCopy := bagClear bag,
           primeIndex := initPrimeIndex (PrimeTable.getPrimeNumbers t).length,
           endFlag := true }
  else
    iterAdvance t bag
      { tableTag := bag.globalTable, primeBagCopy := bag, primeIndex := 0, endFlag := false }

/-! ### Well-formed table states and concrete scenario runs -/

/-- Well-formedness of a `PrimeTable` state: the sieve satisfies its
invariant and every prime recorded anywhere in the table is a genuine
prime value `≥ 2`.  This is the domain of the design contract: it holds
for the default-constructed table and for any table seeded with a valid
ascending prime list, and is preserved by the operations.  (The
`nextPrime.getD 2` form says: if a prefetched prime is present it is
`≥ 2`; it makes the predicate decidable.) -/
def WfTable {V : Type} (t : PrimeTable V) : Prop :=
  SieveInv t.sieveOfEratosthenes ∧
    (∀ p ∈ t.primeHoles, 2 ≤ p) ∧
    (∀ vp ∈ t.primeMap, 2 ≤ vp.2) ∧
    2 ≤ t.nextPrime.getD 2

instance {V : Type} (t : PrimeTable V) : Decidable (WfTable t) := by
  unfold WfTable; infer_instance

/-- The operation sequence refuting the map-bijection invariant:
`add a, add b, add c, remove c, clear, add x, add y, add z` on a fresh
table.  After `clear` the hole pool still holds the freed prime `5`
(the C++ `primeHoles;` statement clears nothing), `add x` hands that
stale `5` to `x`, and the sieve-index bookkeeping later hands the same
`5` to `z` via the prefetched future. -/
def c2Scenario : Option (PrimeTable String) := do
  let r1 ← PrimeTable.add 20 (freshTable String) "a"
  let r2 ← PrimeTable.add 20 r1.2 "b"
  let r3 ← PrimeTable.add 20 r2.2 "c"
  let r4 := PrimeTable.remove r3.2 "c"
  let t5 ← PrimeTable.clear r4.2
  let r6 ← PrimeTable.add 20 t5 "x"
  let r7 ← PrimeTable.add 20 r6.2 "y"
  let r8 ← PrimeTable.add 20 r7.2 "z"
  return r8.2

/-- The concrete scenario of the specification: on an initially empty
registry add `a`, `b`, `c`, build a bag with `a, a, b`, then decode,
count and remove.  Returns
`(prime a, prime b, prime c, encoding, size, decode, count a, remove-b flag, encoding2, size2)`. -/
def c3Chain : Option (Nat × Nat × Nat × Nat × Nat × List String × Nat × Bool × Nat × Nat) := do
  let r1 ← PrimeTable.add 20 (freshTable String) "a"
  let r2 ← PrimeTable.add 20 r1.2 "b"
  let r3 ← PrimeTable.add 20 r2.2 "c"
  let s1 ← bagAddValue 20 r3.2 (emptyBag String 0) "a"
  let s2 ← bagAddValue 20 s1.1 s1.2 "a"
  let s3 ← bagAddValue 20 s2.1 s2.2 "b"
  let decoded ← bagAsVector s3.1 s3.2
  let cnt ← bagCount s3.1 s3.2 "a"
  let rm ← bagRemoveValue s3.1 s3.2 "b"
  return (r1.1, r2.1, r3.1, s3.2.hash, s3.2.length, decoded, cnt, rm.1, rm.2.hash, rm.2.length)

/-- `add a, remove a, clear` on a fresh table: the state after `clear`. -/
def c6Cleared : Option (PrimeTable String) := do
  let r1 ← PrimeTable.add 20 (freshTable String) "a"
  let r4 := PrimeTable.remove r1.2 "a"
  PrimeTable.clear r4.2

/-- A table state as reached by adding `a`, `b`, `c` to a fresh table and
consuming the prefetched future; used by the iterator counterexamples. -/
def c8Table : PrimeTable String :=
  { nextPrime := none,
    sieveOfEratosthenes := { highestTestedNum := 7, sieveLimit := 8, primes := [2, 3, 5, 7] },
    primeHoles := [],
    primeMap := [("a", 2), ("b", 3), ("c", 5)],
    reversePrimeMap := [(2, "a"), (3, "b"), (5, "c")] }

/-- The bag `{a, b}` over `c8Table` (encoding `6`), before mutation. -/
def c8Bag1 : PrimeBag String := { globalTable := 0, hash := 6, length := 2 }

/-- The same live bag object after a later `add(c)`: encoding `30`, size `3`. -/
def c8Bag2 : PrimeBag String := { globalTable := 0, hash := 30, length := 3 }

/-- The `end()` cursor created from `c8Bag1` (snapshot cleared, parked at
the last prime index, terminal). -/
def c8Iter : PrimeBagIterator String :=
  { tableTag := 0, primeBagCopy := { globalTable := 0, hash := 1, length := 0 },
    primeIndex := 3, endFlag := true }

/-- The table state after `bagAddValue 10 (freshTable String) (emptyBag String 0) "a"`. -/
def c4Table : PrimeTable String :=
  { nextPrime := some 3,
    sieveOfEratosthenes := { highestTestedNum := 4, sieveLimit := 4, primes := [2, 3] },
    primeHoles := [],
    primeMap := [("a", 2)],
    reversePrimeMap := [(2, "a")] }

/-- The bag state after that same `add`: encoding `2`, size `1`. -/
def c4Bag : PrimeBag String := { globalTable := 0, hash := 2, length := 1 }

/-- A table whose hole pool holds the freed primes `7, 3, 2`
(max-ordered), as after adds of `a..d` and removes of `b, d, a`. -/
def c7Table : PrimeTable String :=
  { nextPrime := some 11,
    sieveOfEratosthenes := { highestTestedNum := 12, sieveLimit := 16, primes := [2, 3, 5, 7, 11] },
    primeHoles := [7, 3, 2],
    primeMap := [("c", 5)],
    reversePrimeMap := [(5, "c")] }

/-! ## Proofs

### The executable primality test agrees with `Nat.Prime` -/

theorem isPrimeB_iff {n : Nat} : isPrimeB n = true ↔ n.Prime := by
  rw [Nat.prime_def_lt]
  simp only [isPrimeB, Bool.and_eq_true, decide_eq_true_eq, List.all_eq_true, List.mem_range,
    Bool.or_eq_true]
  constructor
  · rintro ⟨h2, hall⟩
    refine ⟨h2, fun m hm hdvd => ?_⟩
    rcases hall m hm with h | h
    · have h0 : m ≠ 0 := by
        rintro rfl
        rw [Nat.zero_dvd] at hdvd
        omega
      omega
    · exact absurd (Nat.dvd_iff_mod_eq_zero.mp hdvd) h
  · rintro ⟨h2, hmin⟩
    refine ⟨h2, fun d hd => ?_⟩
    by_cases hd2 : d < 2
    · exact Or.inl hd2
    · refine Or.inr fun hmod => ?_
      have := hmin d hd (Nat.dvd_iff_mod_eq_zero.mpr hmod)
      omega

theorem mem_primesUpTo {m n : Nat} : m ∈ primesUpTo n ↔ m.Prime ∧ m ≤ n := by
  simp only [primesUpTo, List.mem_filter, List.mem_range, isPrimeB_iff, Nat.lt_succ_iff]
  exact and_comm

theorem primesUpTo_two_le {m n : Nat} (h : m ∈ primesUpTo n) : 2 ≤ m :=
  (mem_primesUpTo.mp h).1.two_le

theorem primesUpTo_succ (n : Nat) :
    primesUpTo (n + 1) = primesUpTo n ++ (if isPrimeB (n + 1) then [n + 1] else []) := by
  rw [primesUpTo, primesUpTo, List.range_succ, List.filter_append]
  cases h : isPrimeB (n + 1) <;> simp [List.filter, h]

theorem length_primesUpTo (n : Nat) :
    (primesUpTo n).length = Nat.count Nat.Prime (n + 1) := by
  rw [primesUpTo, Nat.count, ← List.countP_eq_length_filter]
  exact List.countP_congr fun a _ => by
    rw [isPrimeB_iff]
    simp

/-- The `i`-th element of the computed prime list is the `i`-th prime of
the mathematical ascending enumeration. -/
theorem primesUpTo_get? (n : Nat) :
    ∀ i, i < (primesUpTo n).length → (primesUpTo n).get? i = some (Nat.nth Nat.Prime i) := by
  induction n with
  | zero =>
    intro i h
    rw [show primesUpTo 0 = [] from rfl] at h
    exact absurd h (Nat.not_lt_zero i)
  | succ n ih =>
    intro i h
    rcases Nat.lt_or_ge i (primesUpTo n).length with hi | hi
    · rw [primesUpTo_succ, List.get?_append hi]
      exact ih i hi
    · have hprime : isPrimeB (n + 1) = true := by
        by_contra hb
        rw [Bool.not_eq_true] at hb
        rw [primesUpTo_succ, hb] at h
        simp at h
        omega
      have hsucc : primesUpTo (n + 1) = primesUpTo n ++ [n + 1] := by
        rw [primesUpTo_succ, hprime]
        simp
      have hlen : i < (primesUpTo n).length + 1 := by
        rw [hsucc] at h
        simpa using h
      have hieq : i = (primesUpTo n).length := by omega
      subst hieq
      rw [hsucc, List.get?_append_right (Nat.le_refl _), Nat.sub_self]
      rw [length_primesUpTo]
      rw [show ([n + 1] : List Nat).get? 0 = some (n + 1) from rfl]
      exact congrArg some (Nat.nth_count (isPrimeB_iff.mp hprime)).symm

/-! ### The limit-doubling loop -/

/-- Any value the doubling loop returns has beaten the bound (the exit
condition of the `while`), no matter the fuel or the wraps on the way. -/
theorem updateLimitAux_some_gt {fuel sieveLimit lo r : Nat}
    (h : updateLimitAux fuel sieveLimit lo = some r) : lo < r ∧ 1 ≤ r := by
  induction fuel generalizing sieveLimit with
  | zero => exact absurd h (by rw [updateLimitAux]; simp)
  | succ fuel ih =>
    rw [updateLimitAux] at h
    split at h
    · exact ih h
    · cases Option.some.inj h
      omega

/-- Once the doubling has wrapped to `0`, the loop runs forever. -/
theorem updateLimitAux_zero (fuel lo : Nat) : updateLimitAux fuel 0 lo = none := by
  induction fuel with
  | zero => rw [updateLimitAux]
  | succ fuel ih =>
    rw [updateLimitAux, if_pos (Nat.zero_le lo)]
    simpa using ih

/-- From a power-of-two limit (the only limits an unseeded sieve ever
has) the loop returns only powers of two `≤ 2^31`: `2^31` doubles to
`2^32 % 2^32 = 0` and the loop then hangs. -/
theorem updateLimitAux_pow {fuel k lo r : Nat} (hk : k ≤ 31)
    (h : updateLimitAux fuel (2 ^ k) lo = some r) : ∃ j, j ≤ 31 ∧ r = 2 ^ j := by
  induction fuel generalizing k with
  | zero => exact absurd h (by rw [updateLimitAux]; simp)
  | succ fuel ih =>
    rw [updateLimitAux] at h
    split at h
    · rcases Nat.lt_or_ge k 31 with hk31 | hk31
      · have hred : 2 ^ k * 2 % U32 = 2 ^ (k + 1) := by
          rw [← Nat.pow_succ]
          exact Nat.mod_eq_of_lt (by
            have : 2 ^ (k + 1) ≤ 2 ^ 31 := Nat.pow_le_pow_right (by omega) (by omega)
            have hU : U32 = 2 ^ 32 := by norm_num [U32]
            have : 2 ^ 31 < 2 ^ 32 := Nat.pow_lt_pow_right (by omega) (by omega)
            omega)
        rw [hred] at h
        exact ih (by omega) h
      · have hke : k = 31 := by omega
        subst hke
        have hred : 2 ^ 31 * 2 % U32 = 0 := by
          rw [← Nat.pow_succ, U32]
        rw [hred, updateLimitAux_zero] at h
        exact absurd h (by simp)
    · cases Option.some.inj h
      exact ⟨k, hk, rfl⟩

/-- Below the wrap (`lo < 2^31`) the doubling never reaches `2^32`, so
the loop behaves like exact arithmetic and terminates: each iteration
at least increments the value, and the value stays `≤ 2 * lo < 2^32`. -/
theorem updateLimitAux_total {lo : Nat} (hlo : lo < 2147483648) :
    ∀ (fuel sieveLimit : Nat), 1 ≤ sieveLimit → 1 ≤ fuel →
      lo + 2 ≤ sieveLimit + fuel →
      ∃ r, updateLimitAux fuel sieveLimit lo = some r := by
  intro fuel
  induction fuel with
  | zero =>
    intro sieveLimit _ hf _
    omega
  | succ fuel ih =>
    intro sieveLimit h1 _ hbound
    rw [updateLimitAux]
    split
    · rename_i hle
      have hnowrap : sieveLimit * 2 % U32 = sieveLimit * 2 :=
        Nat.mod_eq_of_lt (by rw [U32]; omega)
      rw [hnowrap]
      exact ih (sieveLimit * 2) (by omega) (by omega) (by omega)
    · exact ⟨sieveLimit, rfl⟩

theorem updateLimit_total {sieveLimit lo : Nat} (h1 : 1 ≤ sieveLimit)
    (hlo : lo < 2147483648) :
    ∃ r, updateLimit sieveLimit lo = some r ∧ lo < r ∧ 1 ≤ r := by
  obtain ⟨r, hr⟩ := updateLimitAux_total hlo (lo + 34) sieveLimit h1 (by omega) (by omega)
  obtain ⟨hgt, hone⟩ := updateLimitAux_some_gt hr
  exact ⟨r, hr, hgt, hone⟩

/-! ### The bit field: `countMultiplesInBitField` -/

theorem getD_set_false (bf : List Bool) (k j : Nat) :
    (bf.set k false).getD j false = (bf.getD j false && !(decide (k = j))) := by
  rcases eq_or_ne k j with rfl | hne
  · have hr : (bf.getD k false && !(decide (k = k))) = false := by simp
    rw [hr]
    rcases Nat.lt_or_ge k bf.length with h | h
    · rw [List.getD_eq_getElem?_getD, List.getElem?_set_self h]
      rfl
    · rw [List.getD_eq_getElem?_getD, List.getElem?_eq_none (by simpa using h)]
      rfl
  · have hd : decide (k = j) = false := decide_eq_false hne
    rw [hd, Bool.not_false, Bool.and_true, List.getD_eq_getElem?_getD,
      List.getD_eq_getElem?_getD, List.getElem?_set_ne hne]

theorem clearFold_length (lo : Nat) (L : List Nat) (bf : List Bool) :
    (L.foldl (fun bf m => if lo ≤ m then bf.set (m - lo) false else bf) bf).length
      = bf.length := by
  induction L generalizing bf with
  | nil => rfl
  | cons m L ih =>
    rw [List.foldl_cons, ih]
    split <;> simp

theorem clearFold_getD (lo : Nat) (L : List Nat) (bf : List Bool) (j : Nat) :
    ((L.foldl (fun bf m => if lo ≤ m then bf.set (m - lo) false else bf) bf).getD j false = true)
      ↔ (bf.getD j false = true ∧ ¬ ∃ m ∈ L, lo ≤ m ∧ m - lo = j) := by
  induction L generalizing bf with
  | nil => simp
  | cons m L ih =>
    rw [List.foldl_cons, ih]
    by_cases hm : lo ≤ m
    · rw [if_pos hm, getD_set_false]
      simp only [Bool.and_eq_true, Bool.not_eq_true', decide_eq_false_iff_not, List.mem_cons]
      constructor
      · rintro ⟨⟨hbf, hne⟩, hnex⟩
        refine ⟨hbf, ?_⟩
        rintro ⟨x, hx | hx, hlox, hxj⟩
        · subst hx
          exact hne hxj
        · exact hnex ⟨x, hx, hlox, hxj⟩
      · rintro ⟨hbf, hnex⟩
        refine ⟨⟨hbf, ?_⟩, ?_⟩
        · exact fun hj => hnex ⟨m, Or.inl rfl, hm, hj⟩
        · rintro ⟨x, hx, hlox, hxj⟩
          exact hnex ⟨x, Or.inr hx, hlox, hxj⟩
    · rw [if_neg hm]
      simp only [List.mem_cons]
      constructor
      · rintro ⟨hbf, hnex⟩
        refine ⟨hbf, ?_⟩
        rintro ⟨x, hx | hx, hlox, hxj⟩
        · subst hx; exact hm hlox
        · exact hnex ⟨x, hx, hlox, hxj⟩
      · rintro ⟨hbf, hnex⟩
        refine ⟨hbf, ?_⟩
        rintro ⟨x, hx, hlox, hxj⟩
        exact hnex ⟨x, Or.inr hx, hlox, hxj⟩

theorem countMultiples_length (bf : List Bool) (p lo hi : Nat) :
    (countMultiplesInBitField bf p lo hi).length = bf.length := by
  unfold countMultiplesInBitField
  split
  · rfl
  · exact clearFold_length lo _ bf

/-- Membership of `lo + j` in the struck-out arithmetic progression. -/
theorem mem_progression_iff {p lo hi j : Nat} (hp : 1 ≤ p) (hle : p * p ≤ hi) :
    (∃ m ∈ List.range' (p * p) ((hi - p * p) / p + 1) p, lo ≤ m ∧ m - lo = j)
      ↔ (p ∣ (lo + j) ∧ p * p ≤ lo + j ∧ lo + j ≤ hi) := by
  constructor
  · rintro ⟨m, hm, hlom, hmj⟩
    rw [List.mem_range'] at hm
    obtain ⟨i, hilt, rfl⟩ := hm
    have hmeq : p * p + p * i = lo + j := by omega
    refine ⟨?_, by omega, ?_⟩
    · rw [← hmeq]
      exact ⟨p + i, by ring⟩
    · have h1 : i ≤ (hi - p * p) / p := by omega
      have h2 : i * p ≤ hi - p * p := (Nat.le_div_iff_mul_le hp).mp h1
      have h3 : i * p = p * i := Nat.mul_comm i p
      omega
  · rintro ⟨hdvd, hsq, hhi⟩
    obtain ⟨q, hq⟩ := hdvd
    have hpq : p ≤ q :=
      Nat.le_of_mul_le_mul_left (show p * p ≤ p * q by omega) (show 0 < p by omega)
    obtain ⟨d, rfl⟩ := Nat.exists_eq_add_of_le hpq
    have hq2 : lo + j = p * p + p * d := by rw [hq]; ring
    refine ⟨lo + j, ?_, by omega, by omega⟩
    rw [List.mem_range']
    refine ⟨d, ?_, by omega⟩
    have h2 : d * p ≤ hi - p * p := by
      have h3 : d * p = p * d := Nat.mul_comm d p
      omega
    have := (Nat.le_div_iff_mul_le hp).mpr h2
    omega

theorem countMultiples_getD {p lo hi : Nat} (hp : 1 ≤ p) (bf : List Bool) (j : Nat) :
    ((countMultiplesInBitField bf p lo hi).getD j false = true)
      ↔ (bf.getD j false = true ∧ ¬ (p ∣ (lo + j) ∧ p * p ≤ lo + j ∧ lo + j ≤ hi)) := by
  unfold countMultiplesInBitField
  split
  · rename_i h
    constructor
    · exact fun hb => ⟨hb, fun hc => by omega⟩
    · exact fun hb => hb.1
  · rename_i h
    rw [clearFold_getD, mem_progression_iff hp (by omega)]

/-! ### The two marking phases of one segment -/

/-- Folding `countMultiplesInBitField` over a list of primes (the first
`for` loop of `SieveOfEratosthenes::sieve`). -/
theorem primesFold_getD (lo hi : Nat) (P : List Nat) (bf : List Bool) (j : Nat)
    (hP : ∀ p ∈ P, 1 ≤ p) :
    ((P.foldl (fun bf p => countMultiplesInBitField bf p lo hi) bf).getD j false = true)
      ↔ (bf.getD j false = true ∧
          ∀ p ∈ P, ¬ (p ∣ (lo + j) ∧ p * p ≤ lo + j ∧ lo + j ≤ hi)) := by
  induction P generalizing bf with
  | nil => simp
  | cons p P ih =>
    rw [List.foldl_cons, ih _ (fun q hq => hP q (List.mem_cons_of_mem p hq)),
      countMultiples_getD (hP p (List.mem_cons_self p P))]
    simp only [List.forall_mem_cons]
    tauto

theorem primesFold_length (lo hi : Nat) (P : List Nat) (bf : List Bool) :
    ((P.foldl (fun bf p => countMultiplesInBitField bf p lo hi) bf)).length = bf.length := by
  induction P generalizing bf with
  | nil => rfl
  | cons p P ih => rw [List.foldl_cons, ih, countMultiples_length]

theorem marked_succ_iff (lo j k : Nat) :
    Marked lo (j + 1) k
      ↔ (Marked lo j k ∨
          ((lo + j).Prime ∧ (lo + j) ∣ (lo + k) ∧ (lo + j) * (lo + j) ≤ lo + k)) := by
  unfold Marked
  constructor
  · rintro ⟨p, hp, hlt, hdvd, hsq⟩
    rcases Nat.lt_or_ge p (lo + j) with h | h
    · exact Or.inl ⟨p, hp, h, hdvd, hsq⟩
    · have hpe : p = lo + j := by omega
      subst hpe
      exact Or.inr ⟨hp, hdvd, hsq⟩
  · rintro (⟨p, hp, hlt, hdvd, hsq⟩ | ⟨hp, hdvd, hsq⟩)
    · exact ⟨p, hp, by omega, hdvd, hsq⟩
    · exact ⟨lo + j, hp, by omega, hdvd, hsq⟩

/-- At its own scan position a segment number is marked exactly when it
is composite. -/
theorem marked_self_iff {lo j : Nat} (h2 : 2 ≤ lo + j) :
    Marked lo j j ↔ ¬ (lo + j).Prime := by
  constructor
  · rintro ⟨p, hp, hlt, hdvd, hsq⟩ hprime
    rcases (Nat.Prime.eq_one_or_self_of_dvd hprime p hdvd) with h | h
    · exact hp.one_lt.ne' h
    · rw [h] at hsq
      have h2p : 2 * (lo + j) ≤ (lo + j) * (lo + j) :=
        Nat.mul_le_mul_right (lo + j) h2
      omega
  · intro hnp
    have hne1 : lo + j ≠ 1 := by omega
    refine ⟨(lo + j).minFac, Nat.minFac_prime hne1, ?_, Nat.minFac_dvd _, ?_⟩
    · have hd := Nat.minFac_dvd (lo + j)
      have hle := Nat.le_of_dvd (by omega) hd
      rcases lt_or_eq_of_le hle with h | h
      · exact h
      · exact absurd (h ▸ Nat.minFac_prime hne1) hnp
    · have hs := Nat.minFac_sq_le_self (show 0 < lo + j by omega) hnp
      rwa [pow_two] at hs

/-- Main induction for the prime-collecting scan (`sieveInner`): starting
at index `j` with the bit field reflecting `Marked lo j`, the scan over
the remaining indices appends exactly the primes of the remaining
segment numbers. -/
theorem sieveInner_spec (lo hi : Nat) (hlo : 2 ≤ lo) :
    ∀ (n j : Nat) (bf : List Bool) (ps : List Nat),
      j + n = hi - lo + 1 →
      bf.length = hi - lo + 1 →
      (∀ k, j ≤ k → k < hi - lo + 1 → ((bf.getD k false = true) ↔ ¬ Marked lo j k)) →
      (sieveInner lo hi (List.range' j n) bf ps).2
        = ps ++ (List.range' (lo + j) n).filter isPrimeB := by
  intro n
  induction n with
  | zero =>
    intro j bf ps hjn hlen hinv
    simp [sieveInner]
  | succ n ih =>
    intro j bf ps hjn hlen hinv
    rw [show List.range' j (n + 1) = j :: List.range' (j + 1) n from List.range'_succ j n 1]
    rw [show List.range' (lo + j) (n + 1) = (lo + j) :: List.range' (lo + j + 1) n from
      List.range'_succ (lo + j) n 1]
    rw [sieveInner]
    have hj : j < hi - lo + 1 := by omega
    have hbfj := hinv j (Nat.le_refl j) hj
    have hm2 : 2 ≤ lo + j := by omega
    have hms := marked_self_iff hm2
    have hstep : lo + (j + 1) = lo + j + 1 := by omega
    by_cases hb : bf.getD j false = true
    · have hprime : (lo + j).Prime := by
        by_contra hnp
        exact (hbfj.mp hb) (hms.mpr hnp)
      have hpB : isPrimeB (lo + j) = true := isPrimeB_iff.mpr hprime
      have hnewinv : ∀ k, j + 1 ≤ k → k < hi - lo + 1 →
          (((countMultiplesInBitField bf (j + lo) lo hi).getD k false = true)
            ↔ ¬ Marked lo (j + 1) k) := by
        intro k hk1 hk2
        rw [countMultiples_getD (show 1 ≤ j + lo by omega)]
        rw [hinv k (by omega) hk2]
        rw [show j + lo = lo + j from Nat.add_comm j lo]
        rw [marked_succ_iff]
        have hkhi : lo + k ≤ hi := by omega
        constructor
        · rintro ⟨hnm, hnc⟩ (hm | ⟨_, hdvd, hsq⟩)
          · exact hnm hm
          · exact hnc ⟨hdvd, hsq, hkhi⟩
        · intro hno
          refine ⟨fun hm => hno (Or.inl hm), ?_⟩
          rintro ⟨hdvd, hsq, _⟩
          exact hno (Or.inr ⟨hprime, hdvd, hsq⟩)
      rw [if_pos hb]
      rw [ih (j + 1) _ _ (by omega) (by rw [countMultiples_length]; exact hlen) hnewinv]
      rw [List.filter_cons_of_pos hpB, hstep]
      rw [show j + lo = lo + j from Nat.add_comm j lo, List.append_assoc]
      rfl
    · have hmk : Marked lo j j := by
        by_contra hnm
        exact hb (hbfj.mpr hnm)
      have hnp : ¬ (lo + j).Prime := hms.mp hmk
      have hpB : ¬ isPrimeB (lo + j) = true := by
        rw [isPrimeB_iff]
        exact hnp
      have hnewinv : ∀ k, j + 1 ≤ k → k < hi - lo + 1 →
          ((bf.getD k false = true) ↔ ¬ Marked lo (j + 1) k) := by
        intro k hk1 hk2
        rw [hinv k (by omega) hk2, marked_succ_iff]
        constructor
        · rintro hnm (hm | ⟨hp, _, _⟩)
          · exact hnm hm
          · exact hnp hp
        · exact fun hno hm => hno (Or.inl hm)
      rw [if_neg hb]
      rw [ih (j + 1) _ _ (by omega) hlen hnewinv]
      rw [List.filter_cons_of_neg hpB, hstep]

/-! ### One full segment preserves the sieve invariant -/

/-- The prime-collecting core of one segment: starting from the list of
all primes `≤ H`, scanning the segment `[H+1, hi]` produces the list of
all primes `≤ hi`. -/
theorem segment_primes (H hi : Nat) (ps : List Nat) (hps : ps = primesUpTo H)
    (hH : 1 ≤ H) (hlohi : H + 1 ≤ hi) :
    (sieveInner (H + 1) hi
        (List.range (ps.foldl (fun bf p => countMultiplesInBitField bf p (H + 1) hi)
            (List.replicate (hi - (H + 1) + 1) true)).length)
        (ps.foldl (fun bf p => countMultiplesInBitField bf p (H + 1) hi)
            (List.replicate (hi - (H + 1) + 1) true))
        ps).2 = primesUpTo hi := by
  have hP1 : ∀ p ∈ ps, 1 ≤ p := by
    intro p hp
    rw [hps] at hp
    have := primesUpTo_two_le hp
    omega
  have hlen1 : (ps.foldl (fun bf p => countMultiplesInBitField bf p (H + 1) hi)
      (List.replicate (hi - (H + 1) + 1) true)).length = hi - (H + 1) + 1 := by
    rw [primesFold_length, List.length_replicate]
  rw [hlen1, List.range_eq_range']
  have hbase : ∀ k, 0 ≤ k → k < hi - (H + 1) + 1 →
      (((ps.foldl (fun bf p => countMultiplesInBitField bf p (H + 1) hi)
          (List.replicate (hi - (H + 1) + 1) true)).getD k false = true)
        ↔ ¬ Marked (H + 1) 0 k) := by
    intro k _ hk
    rw [primesFold_getD _ _ _ _ _ hP1]
    have hb0 : (List.replicate (hi - (H + 1) + 1) true).getD k false = true := by
      rw [List.getD_eq_getElem?_getD, List.getElem?_replicate_of_lt hk]
      rfl
    rw [hb0]
    have hkhi : (H + 1) + k ≤ hi := by omega
    simp only [true_and]
    constructor
    · rintro hall ⟨p, hpp, hplt, hpdvd, hpsq⟩
      have hpmem : p ∈ ps := by
        rw [hps]
        exact mem_primesUpTo.mpr ⟨hpp, by omega⟩
      exact hall p hpmem ⟨hpdvd, hpsq, hkhi⟩
    · rintro hnm p hpmem ⟨hpdvd, hpsq, hle⟩
      have hm := mem_primesUpTo.mp (hps ▸ hpmem)
      exact hnm ⟨p, hm.1, by omega, hpdvd, hpsq⟩
  rw [sieveInner_spec (H + 1) hi (by omega) (hi - (H + 1) + 1) 0 _ ps (by omega) hlen1 hbase]
  rw [hps, show (H + 1) + 0 = H + 1 from rfl]
  rw [primesUpTo, primesUpTo, List.range_eq_range', List.range_eq_range']
  rw [show hi + 1 = (H + 1) + (hi - (H + 1) + 1) from by omega]
  rw [← List.filter_append]
  congr 1
  have harr := List.range'_append_1 0 (H + 1) (hi - (H + 1) + 1)
  rw [Nat.add_comm (H + 1) (hi - (H + 1) + 1)]
  simpa using harr

/-- `updateLimit` restated: any returned limit has beaten the bound. -/
theorem updateLimit_some_gt {sieveLimit lo r : Nat}
    (h : updateLimit sieveLimit lo = some r) : lo < r ∧ 1 ≤ r :=
  updateLimitAux_some_gt h

/-- Any segment that completes preserves the sieve invariant and
strictly advances the fully-tested bound. -/
theorem sieveSegment_some_spec {s s1 : Sieve} (h : SieveInv s)
    (he : sieveSegment s = some s1) :
    SieveInv s1 ∧ s.highestTestedNum < s1.highestTestedNum := by
  obtain ⟨hps, hlim, hH⟩ := h
  rw [sieveSegment] at he
  cases hu : updateLimit s.sieveLimit (s.highestTestedNum + 1) with
  | none =>
    rw [hu] at he
    exact absurd he (by simp)
  | some limit =>
    rw [hu] at he
    obtain ⟨hgt, hone⟩ := updateLimit_some_gt hu
    have hlohi : s.highestTestedNum + 1
        ≤ Nat.min limit ((s.highestTestedNum + 1) + sqrtB limit) :=
      le_min (by omega) (by omega)
    have hrec := Option.some.inj he
    subst hrec
    refine ⟨⟨?_, hone, ?_⟩, ?_⟩
    · exact segment_primes s.highestTestedNum _ s.primes hps hH hlohi
    · exact le_trans (by omega) hlohi
    · exact Nat.lt_of_lt_of_le (by omega) hlohi

/-- Below the wrap (`min < 2^31`) a segment always completes. -/
theorem sieveSegment_total {s : Sieve} (h : SieveInv s)
    (hlo : s.highestTestedNum + 1 < 2147483648) :
    ∃ s1, sieveSegment s = some s1 := by
  obtain ⟨hps, hlim, hH⟩ := h
  obtain ⟨r, hr, _, _⟩ := updateLimit_total hlim hlo
  rw [sieveSegment, hr]
  exact ⟨_, rfl⟩

/-- A completing segment started at a power-of-two limit (the only
limits an unseeded sieve ever holds) ends at a power-of-two limit
`≤ 2^31` and with `highestTestedNum ≤ 2^31`. -/
theorem sieveSegment_pow {s s1 : Sieve}
    (hpow : ∃ k, k ≤ 31 ∧ s.sieveLimit = 2 ^ k)
    (he : sieveSegment s = some s1) :
    (∃ k, k ≤ 31 ∧ s1.sieveLimit = 2 ^ k)
      ∧ s1.highestTestedNum ≤ 2147483648 := by
  obtain ⟨k, hk, hsl⟩ := hpow
  rw [sieveSegment] at he
  cases hu : updateLimit s.sieveLimit (s.highestTestedNum + 1) with
  | none =>
    rw [hu] at he
    exact absurd he (by simp)
  | some limit =>
    rw [hu] at he
    rw [hsl] at hu
    obtain ⟨j, hj, hjpow⟩ := updateLimitAux_pow hk hu
    have hrec := Option.some.inj he
    subst hrec
    refine ⟨⟨j, hj, hjpow⟩, ?_⟩
    have hmin : Nat.min limit ((s.highestTestedNum + 1) + sqrtB limit) ≤ limit :=
      Nat.min_le_left _ _
    have h2 : (2 : Nat) ^ j ≤ 2 ^ 31 := Nat.pow_le_pow_right (by omega) hj
    have h3 : (2 : Nat) ^ 31 = 2147483648 := by norm_num
    show Nat.min limit ((s.highestTestedNum + 1) + sqrtB limit) ≤ 2147483648
    omega

/-! ### The outer sieve loop and `getPrimeNumber` -/

theorem sieveFuel_some_inv {n : Nat} :
    ∀ (fuel : Nat) (s s1 : Sieve), SieveInv s →
      sieveFuel fuel s n = some s1 → SieveInv s1 := by
  intro fuel
  induction fuel with
  | zero =>
    intro s s1 h he
    cases Option.some.inj he
    exact h
  | succ fuel ih =>
    intro s s1 h he
    rw [sieveFuel] at he
    split at he
    · cases hseg : sieveSegment s with
      | none =>
        rw [hseg] at he
        exact absurd he (by simp)
      | some s2 =>
        rw [hseg] at he
        exact ih s2 s1 (sieveSegment_some_spec h hseg).1 he
    · cases Option.some.inj he
      exact h

/-- With fuel at least `nth Prime index + 1` and the target prime below
the wrap bound `2^31`, every segment the outer loop enters starts below
`2^31` (else the state would already hold `> index` primes), so no
segment hangs and the loop reaches a state holding `≥ index + 1`
primes. -/
theorem sieveFuel_enough {index : Nat}
    (hN : Nat.nth Nat.Prime index < 2147483648) :
    ∀ (fuel : Nat) (s : Sieve), SieveInv s →
      Nat.nth Nat.Prime index + 1 ≤ s.highestTestedNum + fuel →
      ∃ s1, sieveFuel fuel s (index + 1) = some s1
        ∧ index + 1 ≤ s1.primes.length := by
  intro fuel
  induction fuel with
  | zero =>
    intro s h hf
    refine ⟨s, rfl, ?_⟩
    obtain ⟨hps, _, _⟩ := h
    rw [hps, length_primesUpTo]
    have h1 : Nat.count Nat.Prime (Nat.nth Nat.Prime index + 1) = index + 1 :=
      Nat.count_nth_succ_of_infinite Nat.infinite_setOf_prime index
    have h2 : Nat.count Nat.Prime (Nat.nth Nat.Prime index + 1)
        ≤ Nat.count Nat.Prime (s.highestTestedNum + 1) :=
      Nat.count_monotone Nat.Prime (by omega)
    omega
  | succ fuel ih =>
    intro s h hf
    rw [sieveFuel]
    split
    · rename_i hlen
      have hhtn : s.highestTestedNum < Nat.nth Nat.Prime index := by
        by_contra hge
        push_neg at hge
        obtain ⟨hps, _, _⟩ := h
        rw [hps, length_primesUpTo] at hlen
        have h1 : Nat.count Nat.Prime (Nat.nth Nat.Prime index + 1) = index + 1 :=
          Nat.count_nth_succ_of_infinite Nat.infinite_setOf_prime index
        have h2 : Nat.count Nat.Prime (Nat.nth Nat.Prime index + 1)
            ≤ Nat.count Nat.Prime (s.highestTestedNum + 1) :=
          Nat.count_monotone Nat.Prime (by omega)
        omega
      obtain ⟨s2, hseg⟩ := sieveSegment_total h (by omega)
      rw [hseg]
      obtain ⟨hinv2, hadv⟩ := sieveSegment_some_spec h hseg
      exact ih s2 hinv2 (by omega)
    · rename_i hlen
      push_neg at hlen
      exact ⟨s, rfl, hlen⟩

/-- Partial correctness of `getPrimeNumber`: whenever it returns from an
invariant state, the returned value is the `index`-th prime of the
mathematical enumeration and the invariant is preserved. -/
theorem getPrimeNumberF_correct {s : Sieve} {fuel index : Nat} {s1 : Sieve} {p : Nat}
    (h : SieveInv s) (he : getPrimeNumberF fuel s index = some (s1, p)) :
    SieveInv s1 ∧ p = Nat.nth Nat.Prime index := by
  rw [getPrimeNumberF] at he
  rcases Option.bind_eq_some.mp he with ⟨s2, hsf, hmap⟩
  rcases Option.map_eq_some'.mp hmap with ⟨q, hget, heq⟩
  injection heq with hs2 hq
  subst hs2
  subst hq
  have hinv := sieveFuel_some_inv fuel s s2 h hsf
  refine ⟨hinv, ?_⟩
  have hlt : index < s2.primes.length := (List.get?_eq_some.mp hget).choose
  obtain ⟨hps, _, _⟩ := hinv
  rw [hps] at hget hlt
  rw [primesUpTo_get? _ index hlt] at hget
  exact (Option.some.inj hget).symm

/-- Total correctness below the wrap: from any invariant state, if the
`index`-th prime is below `2^31`, enough fuel makes `getPrimeNumber`
return exactly it. -/
theorem getPrimeNumberF_total {s : Sieve} (h : SieveInv s) (index : Nat)
    (hN : Nat.nth Nat.Prime index < 2147483648) :
    ∃ fuel s1, getPrimeNumberF fuel s index
      = some (s1, Nat.nth Nat.Prime index) := by
  obtain ⟨s1, hsf, hlen⟩ :=
    sieveFuel_enough hN (Nat.nth Nat.Prime index + 1) s h (by omega)
  have hinv := sieveFuel_some_inv (Nat.nth Nat.Prime index + 1) s s1 h hsf
  obtain ⟨hps, _, _⟩ := hinv
  have hg : s1.primes.get? index = some (Nat.nth Nat.Prime index) := by
    rw [hps]
    exact primesUpTo_get? _ index (by rw [← hps]; omega)
  refine ⟨Nat.nth Nat.Prime index + 1, s1, ?_⟩
  rw [getPrimeNumberF, hsf]
  show (s1.primes.get? index).map (fun p => (s1, p)) = _
  rw [hg]
  rfl

/-- On a state of the shape every unseeded run stays in (invariant,
power-of-two limit, `highestTestedNum ≤ 2^31`), if the target prime
exceeds `2^31` the outer loop can never produce `index + 1` primes:
every completing segment keeps `highestTestedNum ≤ 2^31` by
`sieveSegment_pow`, which caps the prime count at `π(2^31) ≤ index`. -/
theorem sieveFuel_stuck {index : Nat}
    (hN : 2147483648 < Nat.nth Nat.Prime index) :
    ∀ (fuel : Nat) (s : Sieve), SieveInv s →
      (∃ k, k ≤ 31 ∧ s.sieveLimit = 2 ^ k) →
      s.highestTestedNum ≤ 2147483648 →
      ∀ s1, sieveFuel fuel s (index + 1) = some s1
        → s1.primes.length ≤ index := by
  have hbound : ∀ s : Sieve, SieveInv s → s.highestTestedNum ≤ 2147483648 →
      s.primes.length ≤ index := by
    intro s h hb
    obtain ⟨hps, _, _⟩ := h
    rw [hps, length_primesUpTo]
    have h1 : Nat.count Nat.Prime (s.highestTestedNum + 1)
        ≤ Nat.count Nat.Prime (Nat.nth Nat.Prime index) :=
      Nat.count_monotone Nat.Prime (by omega)
    have h2 : Nat.count Nat.Prime (Nat.nth Nat.Prime index) = index :=
      Nat.count_nth_of_infinite Nat.infinite_setOf_prime index
    omega
  intro fuel
  induction fuel with
  | zero =>
    intro s h hpow hb s1 he
    cases Option.some.inj he
    exact hbound s h hb
  | succ fuel ih =>
    intro s h hpow hb s1 he
    rw [sieveFuel] at he
    split at he
    · cases hseg : sieveSegment s with
      | none =>
        rw [hseg] at he
        exact absurd he (by simp)
      | some s2 =>
        rw [hseg] at he
        obtain ⟨hpow2, hb2⟩ := sieveSegment_pow hpow hseg
        exact ih s2 (sieveSegment_some_spec h hseg).1 hpow2 hb2 s1 he
    · cases Option.some.inj he
      exact hbound s h hb

/-- The `2^31`-th prime strictly exceeds `2^31`: `nth` is strictly
monotone, so `nth Prime n ≥ n`, and `2^31` itself is even, hence not
prime. -/
theorem nth_prime_pow31_big : 2147483648 < Nat.nth Nat.Prime 2147483648 := by
  have hge : 2147483648 ≤ Nat.nth Nat.Prime 2147483648 :=
    (Nat.nth_strictMono Nat.infinite_setOf_prime).le_apply
  have hp : Nat.Prime (Nat.nth Nat.Prime 2147483648) :=
    Nat.nth_mem_of_infinite Nat.infinite_setOf_prime 2147483648
  rcases Nat.lt_or_ge 2147483648 (Nat.nth Nat.Prime 2147483648) with hlt | hle
  · exact hlt
  · exfalso
    have heq : Nat.nth Nat.Prime 2147483648 = 2147483648 := by omega
    rw [heq] at hp
    rcases hp.eq_one_or_self_of_dvd 2 ⟨1073741824, rfl⟩ with h2 | h2 <;> omega

/-! ### Claims C1, C2, C3, C6 -/

/-- Counterexample to claim C1 as stated: the claim's totality ("the
sieve extends itself as needed" for every index) is false of the code.
On the unseeded sieve, `getPrimeNumber(2^31)` never returns, whatever
the fuel: the `(2^31 + 1)`-th prime exceeds `2^31` (`nth` grows at
least linearly and `2^31` is even), every completed segment keeps
`highestTestedNum ≤ 2^31` — so the loop never collects `2^31 + 1`
primes — and the only exit would be a segment whose `uint` doubling
`sieveLimit *= 2` wraps `2^31 * 2` to `0` and hangs forever. -/
theorem claim_C1_counterexample :
    ¬ ∃ fuel s1 p, getPrimeNumberF fuel initialSieve 2147483648
      = some (s1, p) := by
  rintro ⟨fuel, s1, p, he⟩
  rw [getPrimeNumberF] at he
  rcases Option.bind_eq_some.mp he with ⟨s2, hsf, hmap⟩
  rcases Option.map_eq_some'.mp hmap with ⟨q, hget, _⟩
  have hlt : 2147483648 < s2.primes.length :=
    (List.get?_eq_some.mp hget).choose
  have hle := sieveFuel_stuck nth_prime_pow31_big fuel initialSieve
    (by decide) ⟨0, by omega, rfl⟩ (by decide) s2 hsf
  omega

/-- Claim C1, amended: the unseeded constructor establishes the sieve
invariant; from any invariant state a call of
`SieveOfEratosthenes::getPrimeNumber(i)` that returns (fuel models only
the unbounded C++ loops) preserves the invariant and returns exactly
the `(i+1)`-th prime `Nat.nth Nat.Prime i` — hence repeated calls with
the same index return the same value regardless of which other indices
were requested before; and whenever that prime fits below `2^31` (so
the `uint` doubling of `sieveLimit` never wraps), some fuel suffices
for the call to return.  Beyond that bound the original claim's
totality fails: see the counterexample. -/
theorem claim_C1_getPrimeNumber_amended :
    SieveInv initialSieve ∧
      (∀ (s : Sieve) (fuel index : Nat) (s1 : Sieve) (p : Nat), SieveInv s →
          getPrimeNumberF fuel s index = some (s1, p) →
          SieveInv s1 ∧ p = Nat.nth Nat.Prime index) ∧
      (∀ (s : Sieve) (index : Nat), SieveInv s →
          Nat.nth Nat.Prime index < 2147483648 →
          ∃ fuel s1, getPrimeNumberF fuel s index = some (s1, Nat.nth Nat.Prime index)) :=
  ⟨by decide, fun _ _ _ _ _ h he => getPrimeNumberF_correct h he,
   fun _ index h hN => getPrimeNumberF_total h index hN⟩

/-- Witness for C1: the hypotheses are discharged at the concrete
unseeded sieve and index `3`, whose prime `Nat.nth Nat.Prime 3 = 7`
(computed through the verified enumeration) is far below `2^31`. -/
theorem claim_C1_witness :
    SieveInv initialSieve ∧
      (∃ fuel s1, getPrimeNumberF fuel initialSieve 3
        = some (s1, Nat.nth Nat.Prime 3)) := by
  have h1 := primesUpTo_get? 7 3 (by decide)
  have h2 : (primesUpTo 7).get? 3 = some 7 := by decide
  rw [h1] at h2
  have h7 : Nat.nth Nat.Prime 3 = 7 := Option.some.inj h2
  exact ⟨by decide, claim_C1_getPrimeNumber_amended.2.2 initialSieve 3 (by decide)
    (by rw [h7]; decide)⟩

/-- Claim C2 (code bug): running
`add a; add b; add c; remove c; clear; add x; add y; add z` on a fresh
table leaves the forward map with BOTH `x ↦ 5` and `z ↦ 5` while the
reverse map holds `5 ↦ z`: the maps are not mutual inverses and prime
`5` is simultaneously assigned to the two live values `x` and `z`.
The root cause is `PrimeTable::clear` (PrimeTable.h line 162), whose
statement `primeHoles;` does not clear the hole pool, contradicting its
own comment `Re initialise the prime holes queue`. -/
theorem claim_C2_bijection_broken :
    c2Scenario.map
        (fun t => (alookup t.primeMap "x", alookup t.primeMap "z",
          alookup t.reversePrimeMap 5))
      = some (some 5, some 5, some "z") := by decide

/-- Claim C3: the concrete scenario.  On an initially empty registry,
`add a → 2`, `add b → 3`, `add c → 5`; the bag built by adding
`a, a, b` has encoding `12` and size `3`; `decode()` yields
`[a, a, b]`; `count(a) = 2`; `remove(b)` returns `true` and leaves
encoding `4`, size `2`. -/
theorem claim_C3_concrete_scenario :
    c3Chain = some (2, 3, 5, 12, 3, ["a", "a", "b"], 2, true, 4, 2) := by rfl

/-- Claim C6 (code bug): `clear()` on a fresh table throws
`std::future_error` (`get()` on a never-started future, modelled as
`none`); and after `add a; remove a; clear` the hole pool still
contains the freed prime `2` (the statement `primeHoles;` clears
nothing, contradicting its comment), so the next `add` returns a prime
recycled from before the `clear`. -/
theorem claim_C6_clear_broken :
    PrimeTable.clear (freshTable String) = none ∧
      c6Cleared.map (fun t => t.primeHoles) = some [2] ∧
      (c6Cleared.bind (fun t => PrimeTable.add 20 t "b")).map
        (fun r : Nat × PrimeTable String => r.1) = some 2 := by decide

/-! ### Association-list and table lemmas -/

theorem aset_lookup_self {K A : Type} [DecidableEq K] (m : List (K × A)) (k : K) (a : A) :
    alookup (aset m k a) k = some a := by
  induction m with
  | nil => simp [aset, alookup]
  | cons kv rest ih =>
    rw [aset]
    by_cases hk : kv.1 = k
    · rw [if_pos hk, alookup, if_pos rfl]
    · rw [if_neg hk, alookup, if_neg hk]
      exact ih

theorem alookup_mem {K A : Type} [DecidableEq K] {m : List (K × A)} {k : K} {a : A}
    (h : alookup m k = some a) : (k, a) ∈ m := by
  induction m with
  | nil => exact absurd h (by simp [alookup])
  | cons kv rest ih =>
    rw [alookup] at h
    by_cases hk : kv.1 = k
    · rw [if_pos hk] at h
      obtain ⟨k1, a1⟩ := kv
      cases hk
      cases Option.some.inj h
      exact List.mem_cons_self _ _
    · rw [if_neg hk] at h
      exact List.mem_cons_of_mem _ (ih h)

/-- On a well-formed table, a successful `add` returns a prime `≥ 2`
which the updated forward map associates to the value. -/
theorem add_spec {V : Type} [DecidableEq V] {fuel : Nat} {t : PrimeTable V} {v : V}
    {p : Nat} {t1 : PrimeTable V} (hwf : WfTable t)
    (he : PrimeTable.add fuel t v = some (p, t1)) :
    2 ≤ p ∧ PrimeTable.getPrime t1 v = p := by
  obtain ⟨hsv, hholes, hmap, hnext⟩ := hwf
  rw [PrimeTable.add] at he
  split at he
  · -- already mapped: returns the stored prime, table unchanged
    rename_i q hl
    have hinj := Option.some.inj he
    have hq : q = p := congrArg Prod.fst hinj
    have ht : t = t1 := congrArg Prod.snd hinj
    subst hq
    refine ⟨hmap (v, q) (alookup_mem hl), ?_⟩
    rw [← ht, PrimeTable.getPrime, hl]
  · rename_i hl
    split at he
    · -- hole branch
      rename_i ph rest hh
      have hinj := Option.some.inj he
      injection hinj with hq ht
      subst hq
      refine ⟨hholes ph (by rw [hh]; exact List.mem_cons_self ph rest), ?_⟩
      rw [← ht, PrimeTable.getPrime, aset_lookup_self]
    · -- fresh branch: future or synchronous sieve call, then prefetch
      rename_i hh
      rcases Option.bind_eq_some.mp he with ⟨⟨q, s1⟩, hfirst, hsecond⟩
      rcases Option.map_eq_some'.mp hsecond with ⟨⟨s2, np⟩, hpre, heq⟩
      injection heq with hq ht
      subst hq
      constructor
      · -- the returned prime is ≥ 2 in both sub-branches
        cases hn : t.nextPrime with
        | some fp =>
          rw [hn] at hfirst
          have hinj2 := Option.some.inj hfirst
          have hfp : fp = q := congrArg Prod.fst hinj2
          rw [hn] at hnext
          simp only [Option.getD_some] at hnext
          omega
        | none =>
          rw [hn] at hfirst
          rcases Option.map_eq_some'.mp hfirst with ⟨⟨s0, q0⟩, hgp, heq0⟩
          injection heq0 with hq0 hs0
          have hcorr := getPrimeNumberF_correct hsv hgp
          have hprime : q0.Prime := by
            rw [hcorr.2]
            exact Nat.nth_mem_of_infinite Nat.infinite_setOf_prime t.primeMap.length
          have := hprime.two_le
          omega
      · rw [← ht, PrimeTable.getPrime, aset_lookup_self]

/-! ### `uint` arithmetic on bag sizes -/

theorem usub_uadd_one {l : Nat} (h : l < U32) : usub (uadd l 1) 1 = l := by
  simp only [usub, uadd, U32] at *
  omega

theorem usub_uadd {l1 l2 : Nat} (h : l1 + l2 < U32) : usub (uadd l1 l2) l2 = l1 := by
  simp only [usub, uadd, U32] at *
  omega

/-! ### Claim C4: value round-trip on a bag -/

/-- Claim C4: for every bag `b` (any `uint` size, any encoding) over a
well-formed table, `b.add(v)` followed by `b.remove(v)` returns `true`
and restores the original `(encoding, size)` pair exactly.  (`add`
returns `some` whenever the sieve fuel suffices; `remove` is evaluated
against the table as mutated by the `add`.) -/
theorem claim_C4_add_remove_roundtrip {V : Type} [DecidableEq V] (fuel : Nat)
    (t : PrimeTable V) (b : PrimeBag V) (v : V)
    (hwf : WfTable t) (hlen : b.length < U32) :
    ∀ t1 b1, bagAddValue fuel t b v = some (t1, b1) →
      bagRemoveValue t1 b1 v = some (true, b) := by
  obtain ⟨tag, hash, len⟩ := b
  have hlen2 : len < U32 := hlen
  intro t1 b1 he
  rcases Option.map_eq_some'.mp he with ⟨⟨p, t2⟩, hadd, heq⟩
  have ht : t2 = t1 := congrArg Prod.fst heq
  have hb : ({ globalTable := tag, hash := hash * p, length := uadd len 1 } : PrimeBag V)
      = b1 := congrArg Prod.snd heq
  subst ht
  subst hb
  obtain ⟨h2p, hget⟩ := add_spec hwf hadd
  have hch : containsHash (hash * p) p = some true := by
    rw [containsHash, if_neg (by omega : ¬ p = 0)]
    simp [Nat.mul_mod_left]
  simp only [bagRemoveValue]
  rw [hget, if_pos (show p ≠ 0 by omega), hch]
  have hdiv : hash * p / p = hash := Nat.mul_div_cancel hash (show 0 < p by omega)
  rw [hdiv, usub_uadd_one hlen2]

/-- Witness for C4: the round trip evaluated on a fresh table and an
empty bag with value `a`. -/
theorem claim_C4_witness :
    bagRemoveValue c4Table c4Bag "a" = some (true, emptyBag String 0) :=
  claim_C4_add_remove_roundtrip 10 (freshTable String) (emptyBag String 0) "a"
    (by decide) (by decide) c4Table c4Bag (by decide)

/-! ### Claim C7: the hole pool hands out its maximum -/

/-- Claim C7: when `add` is called with an unmapped value while the hole
pool is non-empty, the returned prime is the pool's numerically largest
element (the head of the max-ordered pool), and exactly that element is
removed from the pool (the maps gaining the new association). -/
theorem claim_C7_hole_reuse_max {V : Type} [DecidableEq V] (fuel : Nat) (t : PrimeTable V)
    (v : V) (ph : Nat) (rest : List Nat)
    (hmiss : alookup t.primeMap v = none)
    (hh : t.primeHoles = ph :: rest)
    (hsort : t.primeHoles.Sorted (· ≥ ·)) :
    PrimeTable.add fuel t v
        = some (ph, { t with
            primeHoles := rest,
            primeMap := aset t.primeMap v ph,
            reversePrimeMap := aset t.reversePrimeMap ph v }) ∧
      (∀ q ∈ t.primeHoles, q ≤ ph) := by
  constructor
  · simp only [PrimeTable.add, hmiss, hh]
  · intro q hq
    rw [hh] at hq hsort
    rcases List.mem_cons.mp hq with hq1 | hq1
    · exact hq1.le
    · exact (List.sorted_cons.mp hsort).1 q hq1

/-- Witness for C7: a pool holding `7, 3, 2` hands out `7` and keeps `3, 2`. -/
theorem claim_C7_witness :
    PrimeTable.add 0 c7Table "e"
        = some (7, { c7Table with
            primeHoles := [3, 2],
            primeMap := aset c7Table.primeMap "e" 7,
            reversePrimeMap := aset c7Table.reversePrimeMap 7 "e" }) ∧
      (∀ q ∈ c7Table.primeHoles, q ≤ 7) :=
  claim_C7_hole_reuse_max 0 c7Table "e" 7 [3, 2] (by decide) (by decide) (by decide)

/-! ### Claim C9: never-added values are safe no-ops -/

/-- Claim C9: for a value never added to the registry, `getPrime` returns
`0`, `contains` is `false`, `count` is `0` and `remove` reports failure
leaving the bag unchanged — and none of these runs a modulus by zero
(all results are `some`, while a zero-divisor modulus would be `none`). -/
theorem claim_C9_unassigned_safe {V : Type} [DecidableEq V] (t : PrimeTable V)
    (b : PrimeBag V) (v : V) (h : alookup t.primeMap v = none) :
    PrimeTable.getPrime t v = 0 ∧ bagContains t b v = some false ∧
      bagCount t b v = some 0 ∧ bagRemoveValue t b v = some (false, b) := by
  have hg : PrimeTable.getPrime t v = 0 := by
    simp only [PrimeTable.getPrime, h]
  refine ⟨hg, ?_, ?_, ?_⟩
  · simp [bagContains, hg]
  · simp [bagCount, hg]
  · simp [bagRemoveValue, hg]

/-- Witness for C9: a fresh table, an arbitrary bag and the value `"q"`. -/
theorem claim_C9_witness :
    PrimeTable.getPrime (freshTable String) "q" = 0 ∧
      bagContains (freshTable String) (emptyBag String 0) "q" = some false ∧
      bagCount (freshTable String) (emptyBag String 0) "q" = some 0 ∧
      bagRemoveValue (freshTable String) (emptyBag String 0) "q"
        = some (false, emptyBag String 0) :=
  claim_C9_unassigned_safe (freshTable String) (emptyBag String 0) "q" (by decide)

/-! ### Claim C5: bag union / difference round-trip -/

/-- Counterexample to C5 as stated for arbitrary bags of the C++ type
(all three fields are public): (i) with `A.size = 2^32 - 1` and
`B.size = 2`, the size counter wraps during `A.add(B)` and the guard
`bag.length <= length` of `remove` fails, so `remove` returns `false`
and nothing is restored; (ii) with `B.encoding = 0`, `remove` evaluates
`hash % 0`, which throws on `cpp_int` (modelled `none`), so `remove`
does not return `true`. -/
theorem claim_C5_counterexample :
    ¬ (bagRemoveBag (bagAddBag (⟨0, 6, 4294967295⟩ : PrimeBag Nat) ⟨0, 1, 2⟩) ⟨0, 1, 2⟩
        = some (true, (⟨0, 6, 4294967295⟩ : PrimeBag Nat))) ∧
      ¬ (bagRemoveBag (bagAddBag (⟨0, 6, 1⟩ : PrimeBag Nat) ⟨0, 0, 1⟩) ⟨0, 0, 1⟩
        = some (true, (⟨0, 6, 1⟩ : PrimeBag Nat))) := by decide

/-- Claim C5, amended: for bags sharing a registry, if `B.encoding ≥ 1`
and `A.size + B.size < 2^32` (no `uint` wrap), then `A.add(B)` followed
by `A.remove(B)` returns `true` and restores `A`'s `(encoding, size)`. -/
theorem claim_C5_union_roundtrip {V : Type} (b1 b2 : PrimeBag V)
    (htag : b2.globalTable = b1.globalTable)
    (hhash : 1 ≤ b2.hash)
    (hlen : b1.length + b2.length < U32) :
    bagRemoveBag (bagAddBag b1 b2) b2 = some (true, b1) := by
  obtain ⟨tag1, h1, l1⟩ := b1
  obtain ⟨tag2, h2, l2⟩ := b2
  have htag2 : tag2 = tag1 := htag
  have hhash2 : 1 ≤ h2 := hhash
  have hlen2 : l1 + l2 < U32 := hlen
  have huadd : uadd l1 l2 = l1 + l2 := by
    simp only [uadd, U32] at *
    omega
  have husub : usub (l1 + l2) l2 = l1 := by
    simp only [usub, U32] at *
    omega
  have hch : containsHash (h1 * h2) h2 = some true := by
    rw [containsHash, if_neg (by omega : ¬ h2 = 0)]
    simp [Nat.mul_mod_left]
  have hdiv : h1 * h2 / h2 = h1 := Nat.mul_div_cancel h1 (by omega)
  have hadd : bagAddBag (⟨tag1, h1, l1⟩ : PrimeBag V) ⟨tag2, h2, l2⟩
      = ⟨tag1, h1 * h2, l1 + l2⟩ := by
    simp [bagAddBag, htag2, huadd]
  rw [hadd]
  simp [bagRemoveBag, htag2, show l2 ≤ l1 + l2 from by omega, hch, hdiv, husub]

/-- Witness for C5 (amended): two concrete sharing bags. -/
theorem claim_C5_witness :
    bagRemoveBag (bagAddBag (⟨0, 6, 2⟩ : PrimeBag Nat) ⟨0, 15, 2⟩) ⟨0, 15, 2⟩
      = some (true, (⟨0, 6, 2⟩ : PrimeBag Nat)) :=
  claim_C5_union_roundtrip ⟨0, 6, 2⟩ ⟨0, 15, 2⟩ rfl (by decide) (by decide)

/-! ### Claim C8: what the cursor does and does not depend on -/

/-- Counterexample to C8 as stated: the `end()` cursor of the bag
`{a, b}` (encoding `6`) retreats to different elements depending on the
LIVE bag's current state — against the original bag it lands on prime
`3` (`b`), but after the live bag was mutated to `{a, b, c}` (encoding
`30`) the same cursor lands on prime `5` (`c`).  So cursor behaviour is
NOT determined solely by the construction-time snapshot. -/
theorem claim_C8_counterexample :
    iterInit c8Table c8Bag1 true = some c8Iter ∧
      iterRetreat c8Table c8Bag1 c8Iter ≠ iterRetreat c8Table c8Bag2 c8Iter := by decide

/-- Claim C8, amended: no cursor operation modifies the source bag (in
the C++ the bag is held by `const` reference and every operation only
produces a new cursor state); advance, dereference and comparison are
independent of the live bag; retreat, however, reads exactly the live
bag's current `(encoding, size)`, so mutating the bag after cursor
creation can change retreat results (see the counterexample). -/
theorem claim_C8_cursor_dependence {V : Type} [DecidableEq V] :
    (∀ (t : PrimeTable V) (live1 live2 : PrimeBag V) (c : PrimeBagIterator V),
        iterAdvance t live1 c = iterAdvance t live2 c) ∧
      (∀ (t : PrimeTable V) (live1 live2 : PrimeBag V) (c : PrimeBagIterator V),
        iterDeref t live1 c = iterDeref t live2 c) ∧
      (∀ (live1 live2 : PrimeBag V) (c d : PrimeBagIterator V),
        iterEqb live1 c d = iterEqb live2 c d) ∧
      (∀ (t : PrimeTable V) (live1 live2 : PrimeBag V) (c : PrimeBagIterator V),
        live1.hash = live2.hash → live1.length = live2.length →
        iterRetreat t live1 c = iterRetreat t live2 c) :=
  ⟨fun _ _ _ _ => rfl, fun _ _ _ _ => rfl, fun _ _ _ _ => rfl,
    fun t live1 live2 c hh hl => by simp only [iterRetreat, hh, hl]⟩

/-- Witness for C8 (amended): retreat ignores everything of the live bag
except `(encoding, size)` — here two live bags differing only in their
table pointer. -/
theorem claim_C8_witness :
    iterRetreat c8Table (⟨0, 6, 2⟩ : PrimeBag String) c8Iter
      = iterRetreat c8Table (⟨99, 6, 2⟩ : PrimeBag String) c8Iter :=
  (@claim_C8_cursor_dependence String _).2.2.2 c8Table ⟨0, 6, 2⟩ ⟨99, 6, 2⟩ c8Iter rfl rfl

/-! ### Claim C10: retreating from `end()` of a one-element bag -/

/-- Claim C10: on a bag of size exactly `1` (over a table with at least
one and at most `2^32` calculated primes, so the parked index is in
range), retreating the `end()` cursor leaves it unchanged and still
terminal; in general retreat does anything only when the snapshot size
is strictly below the live size minus one (`uint` arithmetic), so the
single element can never be reached backward from `end()`. -/
theorem claim_C10_retreat_noop {V : Type} [DecidableEq V] :
    (∀ (t : PrimeTable V) (b : PrimeBag V) (c : PrimeBagIterator V),
        b.length = 1 → 0 < (PrimeTable.getPrimeNumbers t).length →
        (PrimeTable.getPrimeNumbers t).length ≤ U32 →
        iterInit t b true = some c →
        iterRetreat t b c = some c ∧ c.endFlag = true) ∧
      (∀ (t : PrimeTable V) (live : PrimeBag V) (c : PrimeBagIterator V) (pr : Nat),
        getPrimeAtTableIndex t c = some pr →
        ¬ (c.primeBagCopy.length < usub live.length 1) →
        iterRetreat t live c = some c) := by
  have hgen : ∀ (t : PrimeTable V) (live : PrimeBag V) (c : PrimeBagIterator V) (pr : Nat),
      getPrimeAtTableIndex t c = some pr →
      ¬ (c.primeBagCopy.length < usub live.length 1) →
      iterRetreat t live c = some c := by
    intro t live c pr hpr hguard
    simp [iterRetreat, hpr, hguard]
  refine ⟨?_, hgen⟩
  intro t b c hb hpos hle hinit
  have hinit2 : some
      ({ tableTag := b.globalTable, primeBagCopy := bagClear b,
         primeIndex := initPrimeIndex (PrimeTable.getPrimeNumbers t).length,
         endFlag := true } : PrimeBagIterator V) = some c := by
    rw [← hinit, iterInit]
    simp [hb]
  have hc := Option.some.inj hinit2
  have hidx : initPrimeIndex (PrimeTable.getPrimeNumbers t).length
      = (PrimeTable.getPrimeNumbers t).length - 1 := by
    simp only [initPrimeIndex, U32] at *
    omega
  have hpr : ∃ pr, getPrimeAtTableIndex t c = some pr := by
    rw [← hc]
    show ∃ pr, (PrimeTable.getPrimeNumbers t).get? (initPrimeIndex _) = some pr
    rw [hidx]
    cases hg : (PrimeTable.getPrimeNumbers t).get? ((PrimeTable.getPrimeNumbers t).length - 1)
      with
    | none =>
      rw [List.get?_eq_none] at hg
      omega
    | some pr => exact ⟨pr, rfl⟩
  obtain ⟨pr, hpr⟩ := hpr
  have hguard : ¬ (c.primeBagCopy.length < usub b.length 1) := by
    rw [← hc]
    show ¬ ((bagClear b).length < usub b.length 1)
    have h0 : (bagClear b).length = 0 := rfl
    have h1 : usub b.length 1 = 0 := by
      rw [hb]
      simp only [usub, U32]
    omega
  refine ⟨hgen t b c pr hpr hguard, ?_⟩
  rw [← hc]

/-- Witness for C10: the `end()` cursor of a one-element bag over a
four-prime table. -/
theorem claim_C10_witness :
    iterRetreat c8Table (⟨0, 5, 1⟩ : PrimeBag String)
        (⟨0, ⟨0, 1, 0⟩, 3, true⟩ : PrimeBagIterator String)
      = some (⟨0, ⟨0, 1, 0⟩, 3, true⟩ : PrimeBagIterator String) ∧
      (⟨0, (⟨0, 1, 0⟩ : PrimeBag String), 3, true⟩ : PrimeBagIterator String).endFlag
        = true :=
  (@claim_C10_retreat_noop String _).1 c8Table ⟨0, 5, 1⟩ ⟨0, ⟨0, 1, 0⟩, 3, true⟩
    rfl (by decide) (by decide) (by decide)

end PrimeBagCluster
